import Mathlib

/-
  Shallow embedding of src/pubmed_pharma_finder.py (class PubMedPharmaFinder).

  Python strings are modelled as List Char.  str.lower, substring tests
  (`kw in s`) and the re-module searches the program performs are modelled
  over ASCII: every keyword and pattern literal in the source is ASCII, and
  the character classes [A-Za-z], \w, \s of the patterns are taken in their
  ASCII reading.
-/

set_option maxHeartbeats 1000000

/-- The 26 ASCII upper/lower case pairs, the part of Python str.lower
relevant to the program's ASCII keyword and pattern literals. -/
def asciiLowerTable : List (Char × Char) :=
  [('A','a'), ('B','b'), ('C','c'), ('D','d'), ('E','e'), ('F','f'),
   ('G','g'), ('H','h'), ('I','i'), ('J','j'), ('K','k'), ('L','l'),
   ('M','m'), ('N','n'), ('O','o'), ('P','p'), ('Q','q'), ('R','r'),
   ('S','s'), ('T','t'), ('U','u'), ('V','v'), ('W','w'), ('X','x'),
   ('Y','y'), ('Z','z')]

/-- Per-character model of Python str.lower (ASCII). -/
def pyLower (c : Char) : Char := (asciiLowerTable.lookup c).getD c

/-- Model of Python str.lower (ASCII): `affiliation.lower()`. -/
def pyLowerStr (s : List Char) : List Char := s.map pyLower

/-- Boolean test: does `hay` start with `needle`? -/
def isPre : List Char → List Char → Bool
  | [], _ => true
  | _ :: _, [] => false
  | a :: as, b :: bs => if a = b then isPre as bs else false

/-- Model of the Python substring test `needle in hay`. -/
def containsSub (needle : List Char) : List Char → Bool
  | [] => needle.isEmpty
  | x :: xs => isPre needle (x :: xs) || containsSub needle xs

/-- ACADEMIC_KEYWORDS of the source (lines 22-27). -/
def ACADEMIC_KEYWORDS : List (List Char) :=
  ["university", "college", "institute", "school",
   "center for", "centre for", "hospital", "medical center",
   "medical centre", "clinic", "foundation", "academy",
   "national", "federal", "ministry", "department of health"].map String.toList

/-- COMPANY_KEYWORDS of the source (lines 30-35). -/
def COMPANY_KEYWORDS : List (List Char) :=
  ["inc", "llc", "ltd", "limited", "corp", "corporation",
   "pharmaceuticals", "pharmaceutical", "pharma", "biotech",
   "biosciences", "therapeutics", "laboratories", "labs", "biopharm",
   "biomed", "biopharma", "bio-pharm", "bio-tech", "life sciences"].map String.toList

/-
  A small backtracking regular-expression engine, specialised to the shapes
  actually used by the source: the six company-naming patterns of
  _is_company_affiliation (lines 201-208) and the email pattern of
  _parse_article (line 291).  All quantifiers in those patterns sit over
  single character classes, so an item list of the forms below covers them
  exactly; matching is leftmost, greedy with backtracking, as in Python's re.
  An IGNORECASE literal is matched as the compiled program does: the input
  character is lowercased and tested against the set of the lowercased
  literal and its extra case equivalents from the compiler's equivalence
  table (_equivalences in Lib/re/_compiler.py), e.g. dotless i for i and
  long s for s.
-/

/-- The case-equivalence classes the re compiler folds into IGNORECASE
literals beyond plain lowercasing (_equivalences in Lib/re/_compiler.py):
i and dotless i; s and long s; micro sign and mu; ypogegrammeni, iota and
prosgegrammeni; the two iota-with-dialytika-and-accent forms; the two
upsilon-with-dialytika-and-accent forms; beta and beta symbol; epsilon and
lunate epsilon; theta and theta symbol; kappa and kappa symbol; pi and pi
symbol; rho and rho symbol; final sigma and sigma; phi and phi symbol;
s-with-dot-above and long-s-with-dot-above; the two st ligatures. -/
def reEquivalences : List (List Char) :=
  [['\u0069', '\u0131'],
   ['\u0073', '\u017F'],
   ['\u00B5', '\u03BC'],
   ['\u0345', '\u03B9', '\u1FBE'],
   ['\u0390', '\u1FD3'],
   ['\u03B0', '\u1FE3'],
   ['\u03B2', '\u03D0'],
   ['\u03B5', '\u03F5'],
   ['\u03B8', '\u03D1'],
   ['\u03BA', '\u03F0'],
   ['\u03C0', '\u03D6'],
   ['\u03C1', '\u03F1'],
   ['\u03C2', '\u03C3'],
   ['\u03C6', '\u03D5'],
   ['\u1E61', '\u1E9B'],
   ['\uFB05', '\uFB06']]

/-- fixes[lo] of the re compiler (_ignorecase_fixes): the other members of
the equivalence class of lo, empty for characters outside the table. -/
def reFixes (lo : Char) : List Char :=
  match reEquivalences.find? (fun t => t.contains lo) with
  | some t => t.filter (fun d => d != lo)
  | none => []

/-- The lowercase mapping the IGNORECASE matcher applies to the input
character (sre_lower_unicode).  It is modelled by the ASCII mapping: exact
on ASCII, and the non-ASCII characters this development manipulates (the
equivalence-table members above) are lowercase characters on which the
real mapping is the identity as well. -/
def sreLower (c : Char) : Char := pyLower c

/-- Does input character x match the IGNORECASE literal lo (stored
lowercased)?  The compiled program tests the lowercased input character
for membership in the set of lo and its extra case equivalents. -/
def reIgnoreMatch (lo x : Char) : Bool :=
  (lo :: reFixes lo).contains (sreLower x)

/-- One item of a regular-expression pattern. -/
inductive RItem where
  /-- a literal character (patterns compiled without IGNORECASE) -/
  | lit (c : Char)
  /-- a literal character under re.IGNORECASE (stored lowercase, matched
  with the compiler's case-equivalence folding) -/
  | litCI (c : Char)
  /-- one character of a class -/
  | cls (p : Char → Bool)
  /-- one or more characters of a class, greedy -/
  | clsPlus (p : Char → Bool)
  /-- an optional literal character, greedy -/
  | opt (c : Char)
  /-- the word-boundary assertion of the re module -/
  | boundary

/-- ASCII reading of the \w word-character class used by \b. -/
def isWordChar (c : Char) : Bool :=
  (('a' ≤ c && c ≤ 'z') || ('A' ≤ c && c ≤ 'Z') || ('0' ≤ c && c ≤ '9') || c = '_')

/-- Is there a word boundary between `prev` (the character just before the
current position, none at the string start) and the rest of the string? -/
def wordBoundary (prev : Option Char) (s : List Char) : Bool :=
  let l := match prev with | some c => isWordChar c | none => false
  let r := match s with | x :: _ => isWordChar x | [] => false
  l != r

/-- Greedy matching of one-or-more characters of class `p` followed by the
continuation `rest`; longer runs are preferred, as Python's greedy `+`. -/
def plusHelper (p : Char → Bool) (rest : Option Char → List Char → Option (List Char)) :
    List Char → Option (List Char)
  | [] => none
  | x :: xs =>
    if p x then
      match plusHelper p rest xs with
      | some m => some (x :: m)
      | none => (rest (some x) xs).map (x :: ·)
    else none

/-- Match an item list at the start of `s`; `prev` is the character before
`s` (for \b).  Returns the consumed characters of the match, if any. -/
def itemsMatcher : List RItem → Option Char → List Char → Option (List Char)
  | [], _, _ => some []
  | .lit c :: its, _, s =>
    match s with
    | [] => none
    | x :: xs => if x = c then (itemsMatcher its (some x) xs).map (x :: ·) else none
  | .litCI c :: its, _, s =>
    match s with
    | [] => none
    | x :: xs => if reIgnoreMatch c x then (itemsMatcher its (some x) xs).map (x :: ·) else none
  | .cls p :: its, _, s =>
    match s with
    | [] => none
    | x :: xs => if p x then (itemsMatcher its (some x) xs).map (x :: ·) else none
  | .clsPlus p :: its, _, s => plusHelper p (itemsMatcher its) s
  | .opt c :: its, prev, s =>
    match s with
    | [] => itemsMatcher its prev []
    | x :: xs =>
      if x = c then
        match itemsMatcher its (some x) xs with
        | some m => some (x :: m)
        | none => itemsMatcher its prev (x :: xs)
      else itemsMatcher its prev (x :: xs)
  | .boundary :: its, prev, s =>
    if wordBoundary prev s then itemsMatcher its prev s else none

/-- Try the pattern at every position left to right (re.search). -/
def searchFrom (pat : List RItem) : Option Char → List Char → Option (List Char)
  | prev, [] => itemsMatcher pat prev []
  | prev, x :: xs =>
    match itemsMatcher pat prev (x :: xs) with
    | some m => some m
    | none => searchFrom pat (some x) xs

/-- Model of re.search: leftmost match of `pat` in `s`, returning the
matched text (match.group(0)). -/
def reSearch (pat : List RItem) (s : List Char) : Option (List Char) :=
  searchFrom pat none s

/-- ASCII letter class [A-Za-z]. -/
def isAsciiAlpha (c : Char) : Bool :=
  ('a' ≤ c && c ≤ 'z') || ('A' ≤ c && c ≤ 'Z')

/-- ASCII digit class [0-9]. -/
def isAsciiDigit (c : Char) : Bool := '0' ≤ c && c ≤ '9'

/-- ASCII reading of the \s whitespace class. -/
def isPySpace (c : Char) : Bool :=
  c = ' ' || c = '\t' || c = '\n' || c = '\x0b' || c = '\x0c' || c = '\r'

/-- A sequence of case-insensitive literal items. -/
def litsCI (w : List Char) : List RItem := w.map RItem.litCI

/-- Company pattern 1 of the source: \b[A-Za-z]+,?\s+Inc\.? -/
def patInc : List RItem :=
  [.boundary, .clsPlus isAsciiAlpha, .opt ',', .clsPlus isPySpace] ++
    litsCI (String.toList "inc") ++ [.opt '.']

/-- Company pattern 2 of the source: \b[A-Za-z]+,?\s+Ltd\.? -/
def patLtd : List RItem :=
  [.boundary, .clsPlus isAsciiAlpha, .opt ',', .clsPlus isPySpace] ++
    litsCI (String.toList "ltd") ++ [.opt '.']

/-- Company pattern 3 of the source: \b[A-Za-z]+,?\s+LLC -/
def patLlc : List RItem :=
  [.boundary, .clsPlus isAsciiAlpha, .opt ',', .clsPlus isPySpace] ++
    litsCI (String.toList "llc")

/-- Company pattern 4 of the source: \b[A-Za-z]+,?\s+Corp\.? -/
def patCorp : List RItem :=
  [.boundary, .clsPlus isAsciiAlpha, .opt ',', .clsPlus isPySpace] ++
    litsCI (String.toList "corp") ++ [.opt '.']

/-- Company pattern 5 of the source: \b[A-Za-z]+\s+Pharmaceuticals -/
def patPharmaceuticals : List RItem :=
  [.boundary, .clsPlus isAsciiAlpha, .clsPlus isPySpace] ++
    litsCI (String.toList "pharmaceuticals")

/-- Company pattern 6 of the source: \b[A-Za-z]+\s+Biotech -/
def patBiotech : List RItem :=
  [.boundary, .clsPlus isAsciiAlpha, .clsPlus isPySpace] ++
    litsCI (String.toList "biotech")

/-- company_patterns of _is_company_affiliation (lines 201-208). -/
def companyPatterns : List (List RItem) :=
  [patInc, patLtd, patLlc, patCorp, patPharmaceuticals, patBiotech]

/-- Local-part class [A-Za-z0-9._%+-] of the email pattern. -/
def emailLocalCls (c : Char) : Bool :=
  isAsciiAlpha c || isAsciiDigit c || c = '.' || c = '_' || c = '%' || c = '+' || c = '-'

/-- Domain class [A-Za-z0-9.-] of the email pattern. -/
def emailDomainCls (c : Char) : Bool :=
  isAsciiAlpha c || isAsciiDigit c || c = '.' || c = '-'

/-- Top-level-domain class [A-Z|a-z] of the email pattern (the source's
class literally contains the bar character). -/
def emailTldCls (c : Char) : Bool := isAsciiAlpha c || c = '|'

/-- The email pattern of _parse_article (line 291):
\b[A-Za-z0-9._%+-]+@[A-Za-z0-9.-]+\.[A-Z|a-z]_2,_\b  (the {2,} repetition is
written as one class character followed by a greedy plus). -/
def emailPattern : List RItem :=
  [.boundary, .clsPlus emailLocalCls, .lit '@', .clsPlus emailDomainCls,
   .lit '.', .cls emailTldCls, .clsPlus emailTldCls, .boundary]

/-- Model of _is_company_affiliation (lines 173-215).  The Python
`if not affiliation` covers both None and the empty string; both are
modelled by the empty list. -/
def isCompanyAffiliation (affiliation : List Char) : Bool :=
  if affiliation.isEmpty then false
  else
    let low := pyLowerStr affiliation
    if ACADEMIC_KEYWORDS.any (fun kw => containsSub kw low) then false
    else if COMPANY_KEYWORDS.any (fun kw => containsSub kw low) then true
    else if companyPatterns.any (fun pat => (reSearch pat low).isSome) then true
    else false

/-- The same classifier with the regular-expression pattern tier removed;
the comparison definition for the redundancy claim. -/
def isCompanyAffiliationNoPatterns (affiliation : List Char) : Bool :=
  if affiliation.isEmpty then false
  else
    let low := pyLowerStr affiliation
    if ACADEMIC_KEYWORDS.any (fun kw => containsSub kw low) then false
    else if COMPANY_KEYWORDS.any (fun kw => containsSub kw low) then true
    else false

/-
  Data model of _parse_article (lines 217-324).  An XML element that is
  absent is modelled as none; a present element is modelled by its text.
  (An element present with empty text behaves like the truthiness checks of
  the source: `if aff.text`, `if year_text` treat it as absent.)
-/

/-- One Author element: LastName, ForeName and its Affiliation texts. -/
structure Author where
  lastName : Option (List Char)
  foreName : Option (List Char)
  affiliations : List (List Char)
deriving DecidableEq, Repr

/-- The PubDate element: Year, Month, Day children. -/
structure PubDate where
  year : Option (List Char)
  month : Option (List Char)
  day : Option (List Char)
deriving DecidableEq, Repr

/-- One raw PubmedArticle record: PMID, ArticleTitle, PubDate, Authors. -/
structure ArticleRecord where
  pmid : Option (List Char)
  title : Option (List Char)
  pubDate : Option PubDate
  authors : List Author
deriving DecidableEq, Repr

/-- The dictionary returned by _parse_article (lines 306-314). -/
structure ArticleResult where
  pmid : List Char
  title : List Char
  pubDate : List Char
  pharmaAuthors : List Char
  companyAffiliations : List Char
  correspondingEmail : List Char
  hasPharmaAuthor : Bool
deriving DecidableEq, Repr

/-- Publication-date formatting of _parse_article (lines 241-260):
pub_date starts as "Unknown Date" and is overwritten only when year_text
is truthy, with nested month/day checks. -/
def formatPubDate (pd : Option PubDate) : List Char :=
  match pd with
  | none => String.toList "Unknown Date"
  | some p =>
    let yearText := p.year.getD []
    let monthText := p.month.getD []
    let dayText := p.day.getD []
    if yearText.isEmpty then String.toList "Unknown Date"
    else if monthText.isEmpty then yearText
    else if dayText.isEmpty then yearText ++ '-' :: monthText
    else yearText ++ '-' :: monthText ++ '-' :: dayText

/-- Author display name (lines 275-280), given a present LastName text. -/
def displayName (au : Author) (l : List Char) : List Char :=
  match au.foreName with
  | some f => f ++ ' ' :: l
  | none => l

/-- The per-affiliation email update (lines 290-294): the first match is
kept, later matches never overwrite a non-empty corresponding_email. -/
def emailStep (e : List Char) (aff : List Char) : List Char :=
  match reSearch emailPattern aff with
  | some m => if e.isEmpty then m else e
  | none => e

/-- The mutable per-article state of the author loop (lines 266-269). -/
structure PState where
  pharmaAuthors : List (List Char)
  companyAffiliations : List (List Char)
  correspondingEmail : List Char
  hasPharmaAuthor : Bool
deriving DecidableEq, Repr

/-- One iteration of the author loop of _parse_article (lines 271-303).
An author without LastName is skipped by `continue`; the affiliation list
keeps only truthy (non-empty) texts, mirroring `if aff.text`. -/
def stepAuthor (st : PState) (au : Author) : PState :=
  match au.lastName with
  | none => st
  | some l =>
    let name := displayName au l
    let affs := au.affiliations.filter (fun t => !t.isEmpty)
    let email := affs.foldl emailStep st.correspondingEmail
    if affs.any isCompanyAffiliation then
      { pharmaAuthors := st.pharmaAuthors ++ [name],
        companyAffiliations :=
          st.companyAffiliations ++ affs.filter isCompanyAffiliation,
        correspondingEmail := email,
        hasPharmaAuthor := true }
    else { st with correspondingEmail := email }

/-- Joining with "; " as the source's '; '.join. -/
def joinSemi (l : List (List Char)) : List Char := List.intercalate (String.toList "; ") l

/-- Model of _parse_article (lines 217-324): no PMID means no result; the
result is returned only when has_pharma_author is true.  Python's
set(company_affiliations) iterates in an unspecified order; it is modelled
by List.dedup (the claims never look at that order). -/
def parseArticle (r : ArticleRecord) : Option ArticleResult :=
  match r.pmid with
  | none => none
  | some pmid =>
    let title := match r.title with
      | some t => if t.isEmpty then String.toList "Unknown Title" else t
      | none => String.toList "Unknown Title"
    let pubDate := formatPubDate r.pubDate
    let st := r.authors.foldl stepAuthor ⟨[], [], [], false⟩
    if st.hasPharmaAuthor then
      some { pmid := pmid, title := title, pubDate := pubDate,
             pharmaAuthors := joinSemi st.pharmaAuthors,
             companyAffiliations := joinSemi st.companyAffiliations.dedup,
             correspondingEmail := st.correspondingEmail,
             hasPharmaAuthor := true }
    else none

/-- One iteration of the per-batch record loop of fetch_article_details
(lines 154-158): a record is appended exactly when _parse_article returned
a value whose has_pharma_author flag is true. -/
def processStep (acc : List ArticleResult) (r : ArticleRecord) : List ArticleResult :=
  match parseArticle r with
  | some a => if a.hasPharmaAuthor then acc ++ [a] else acc
  | none => acc

/-- The per-batch record loop of fetch_article_details (lines 154-158). -/
def processArticles (records : List ArticleRecord) : List ArticleResult :=
  records.foldl processStep []

/-- First email found scanning a list of affiliation texts in order. -/
def firstEmailIn : List (List Char) → List Char
  | [] => []
  | a :: rest =>
    match reSearch emailPattern a with
    | some m => m
    | none => firstEmailIn rest

/-- The claim's reading of email extraction: first email-shaped substring in
document order over all affiliation text of all authors. -/
def allAffiliationsEmail (r : ArticleRecord) : List Char :=
  firstEmailIn (r.authors.flatMap Author.affiliations)

/-- Email extraction as the code performs it: only authors with a LastName
are scanned. -/
def namedAffiliationsEmail (r : ArticleRecord) : List Char :=
  firstEmailIn ((r.authors.filter (fun au => au.lastName.isSome)).flatMap Author.affiliations)

/-- Does this author count as a company author (lines 283-297)? -/
def authorCompany (au : Author) : Bool :=
  (au.affiliations.filter (fun t => !t.isEmpty)).any isCompanyAffiliation

/-- Does this author have a LastName (the `continue` guard, line 280)? -/
def authorNamed (au : Author) : Bool := au.lastName.isSome

/-- The display names of the company authors of a record, in order. -/
def companyAuthorNames (r : ArticleRecord) : List (List Char) :=
  r.authors.filterMap (fun au =>
    match au.lastName with
    | some l => if authorCompany au then some (displayName au l) else none
    | none => none)

/-
  Retry model of search (lines 86-108) and fetch_article_details
  (lines 143-171).  The HTTP requests are external; one run of either loop
  is determined by the outcome of each attempt, modelled as an oracle from
  the attempt number to success (with parsed payload) or transient failure.
-/

/-- The attempt loop `for attempt in range(retries)`, given the list of
remaining attempt numbers.  On success the payload is returned; on the
failure of attempt `a` with `a < retries - 1` the loop continues, on the
last attempt it yields `exhaust` (search returns [], fetch just leaves the
batch unprocessed, modelled by `exhaust = none`).  An empty attempt list
(retries = 0) falls off the loop: Python returns None. -/
def goAttempts {α : Type} (retries : Nat) (outcomes : Nat → Except Unit α)
    (exhaust : Option α) : List Nat → Option α
  | [] => none
  | a :: rest =>
    match outcomes a with
    | .ok v => some v
    | .error _ => if a < retries - 1 then goAttempts retries outcomes exhaust rest else exhaust

/-- Model of search (lines 86-108): retry loop returning the id list on
success and [] after the budget is exhausted. -/
def searchModel (retries : Nat) (outcomes : Nat → Except Unit (List (List Char))) :
    Option (List (List Char)) :=
  goAttempts retries outcomes (some []) (List.range retries)

/-- Model of fetch_article_details (lines 143-171) over its batches: each
batch runs its own retry loop; a successful batch contributes its parsed,
filtered articles, an exhausted batch contributes nothing. -/
def fetchModel (retries : Nat)
    (batches : List (Nat → Except Unit (List ArticleRecord))) : List ArticleResult :=
  batches.foldl
    (fun results ob =>
      match goAttempts retries ob none (List.range retries) with
      | some recs => results ++ processArticles recs
      | none => results)
    []

/-
  Export model (export_to_csv, lines 326-367).  The observable effect of one
  call is modelled as a value: printing the no-matches notice, writing rows
  to a named file, or printing articles to the console.
-/

/-- The CSV row of an article: the six fieldnames of line 338-339, the
internal has_pharma_author flag removed (line 349). -/
def articleRow (a : ArticleResult) : List (List Char) :=
  [a.pmid, a.title, a.pubDate, a.pharmaAuthors, a.companyAffiliations, a.correspondingEmail]

/-- The effect of one export_to_csv call. -/
inductive ExportAction where
  | printNoMatches
  | writeFile (filename : List Char) (rows : List (List (List Char)))
  | printConsole (articles : List ArticleResult)
deriving DecidableEq, Repr

/-- Model of export_to_csv (lines 326-367). -/
def exportToCsv (articles : List ArticleResult) (filename : Option (List Char)) :
    ExportAction :=
  if articles.isEmpty then .printNoMatches
  else
    match filename with
    | some f => .writeFile f (articles.map articleRow)
    | none => .printConsole articles


/-
  Concrete inputs used by the counterexamples and witnesses below.
-/

/-- A record with no PMID but a company-affiliated author. -/
def recNoPmid : ArticleRecord :=
  ⟨none, some (String.toList "T"), none,
   [⟨some (String.toList "Doe"), some (String.toList "Jane"),
     [String.toList "Acme Inc"]⟩]⟩

/-- A record whose first author has no LastName but carries the only email
address, and whose second author is company-affiliated. -/
def recSkippedEmail : ArticleRecord :=
  ⟨some (String.toList "2"), some (String.toList "T"), none,
   [⟨none, some (String.toList "John"), [String.toList "reach me at john@x.com"]⟩,
    ⟨some (String.toList "Doe"), some (String.toList "Jane"),
     [String.toList "Acme Inc"]⟩]⟩

/-- A record whose PubDate has a Month but no Year. -/
def recMonthOnly : ArticleRecord :=
  ⟨some (String.toList "3"), some (String.toList "T"),
   some ⟨none, some (String.toList "May"), none⟩,
   [⟨some (String.toList "Doe"), some (String.toList "Jane"),
     [String.toList "Acme Inc"]⟩]⟩

/-- A well-formed record with one company author (carrying the email) and
one academic author. -/
def recW : ArticleRecord :=
  ⟨some (String.toList "11111"), some (String.toList "A Study"),
   some ⟨some (String.toList "2021"), some (String.toList "May"), none⟩,
   [⟨some (String.toList "Doe"), some (String.toList "Jane"),
     [String.toList "Acme Inc, jane@acme.com"]⟩,
    ⟨some (String.toList "Roe"), some (String.toList "John"),
     [String.toList "State University"]⟩]⟩

/-- The Article Result of recW. -/
def resW : ArticleResult :=
  ⟨String.toList "11111", String.toList "A Study", String.toList "2021-May",
   String.toList "Jane Doe", String.toList "Acme Inc, jane@acme.com",
   String.toList "jane@acme.com", true⟩

/-- A search-outcome oracle failing on attempts 0 and 1, succeeding on
attempt 2. -/
def outcomesThird : Nat → Except Unit (List (List Char)) :=
  fun i => if i = 2 then .ok [String.toList "12345"] else .error ()

/-- An always-failing outcome oracle for article batches. -/
def outcomesFailRec : Nat → Except Unit (List ArticleRecord) :=
  fun _ => .error ()

/-- A batch oracle succeeding immediately with one record. -/
def outcomesOkRec : Nat → Except Unit (List ArticleRecord) :=
  fun _ => .ok [recW]

/-- An always-failing search-outcome oracle. -/
def outcomesFailSearch : Nat → Except Unit (List (List Char)) :=
  fun _ => .error ()

/-
  String lemmas for the keyword model.
-/

theorem lookup_mem {β : Type} (l : List (Char × β)) (a : Char) (b : β)
    (h : l.lookup a = some b) : (a, b) ∈ l := by
  induction l with
  | nil => simp [List.lookup] at h
  | cons p rest ih =>
    rcases p with ⟨k, v⟩
    rw [List.lookup] at h
    split at h
    · cases h
      next heq =>
        have hk' : k = a := by
          have := heq
          simp at this
          exact this.symm
        simp [hk']
    · exact List.mem_cons_of_mem _ (ih h)

theorem pyLower_idem (c : Char) : pyLower (pyLower c) = pyLower c := by
  unfold pyLower
  cases h : asciiLowerTable.lookup c with
  | none => simp [h]
  | some y =>
    have hm : (c, y) ∈ asciiLowerTable := lookup_mem _ _ _ h
    have hall : ∀ p ∈ asciiLowerTable, asciiLowerTable.lookup p.2 = none := by decide
    have hy := hall (c, y) hm
    simp [h, hy]

theorem isPre_self_append : ∀ (n t : List Char), isPre n (n ++ t) = true := by
  intro n
  induction n with
  | nil => intro t; rfl
  | cons a as ih => intro t; simp [isPre, ih]

theorem containsSub_parts :
    ∀ (u n v hay : List Char), hay = u ++ n ++ v → containsSub n hay = true := by
  intro u
  induction u with
  | nil =>
    intro n v hay hh
    simp only [List.nil_append] at hh
    subst hh
    cases n with
    | nil =>
      cases v with
      | nil => rfl
      | cons x xs => simp [containsSub, isPre]
    | cons c cs =>
      have h := isPre_self_append (c :: cs) v
      simp only [List.cons_append, List.nil_append] at h ⊢
      simp only [containsSub]
      simp [h]
  | cons a u' ih =>
    intro n v hay hh
    subst hh
    simp only [List.cons_append, containsSub]
    have h := ih n v (u' ++ n ++ v) rfl
    simp only [List.append_assoc] at h ⊢
    simp [h]

/-
  Engine lemmas.  A successful match consumes characters from the front of
  the string; after any first item, the remaining items still match some
  suffix of the input.  These give: a match of a pattern whose tail spells
  a literal word forces that word to occur in the input.
-/

theorem plusHelper_decomp (p : Char → Bool)
    (rest : Option Char → List Char → Option (List Char)) :
    ∀ (s m : List Char), plusHelper p rest s = some m →
      ∃ u s' prev' m', s = u ++ s' ∧ rest prev' s' = some m' := by
  intro s
  induction s with
  | nil => intro m h; simp [plusHelper] at h
  | cons x xs ih =>
    intro m h
    simp only [plusHelper] at h
    by_cases hp : p x
    · rw [if_pos hp] at h
      cases hph : plusHelper p rest xs with
      | some m1 =>
        obtain ⟨u, s', prev', m', hs, hr⟩ := ih m1 hph
        exact ⟨x :: u, s', prev', m', by simp [hs], hr⟩
      | none =>
        rw [hph] at h
        obtain ⟨m', hm', _⟩ := Option.map_eq_some'.mp h
        exact ⟨[x], xs, some x, m', rfl, hm'⟩
    · rw [if_neg hp] at h
      cases h

theorem plusHelper_ne_nil (p : Char → Bool)
    (rest : Option Char → List Char → Option (List Char))
    (s m : List Char) (h : plusHelper p rest s = some m) : m ≠ [] := by
  cases s with
  | nil => simp [plusHelper] at h
  | cons x xs =>
    simp only [plusHelper] at h
    by_cases hp : p x
    · rw [if_pos hp] at h
      cases hph : plusHelper p rest xs with
      | some m1 =>
        rw [hph] at h
        cases h
        simp
      | none =>
        rw [hph] at h
        obtain ⟨m', _, hm⟩ := Option.map_eq_some'.mp h
        rw [← hm]
        simp
    · rw [if_neg hp] at h
      cases h

theorem itemsMatcher_step (it : RItem) (its : List RItem) (prev : Option Char)
    (s m : List Char) (h : itemsMatcher (it :: its) prev s = some m) :
    ∃ u s' prev' m', s = u ++ s' ∧ itemsMatcher its prev' s' = some m' := by
  cases it with
  | lit c =>
    cases s with
    | nil => simp [itemsMatcher] at h
    | cons x xs =>
      simp only [itemsMatcher] at h
      by_cases hx : x = c
      · rw [if_pos hx] at h
        obtain ⟨m', hm', _⟩ := Option.map_eq_some'.mp h
        exact ⟨[x], xs, some x, m', rfl, hm'⟩
      · rw [if_neg hx] at h; cases h
  | litCI c =>
    cases s with
    | nil => simp [itemsMatcher] at h
    | cons x xs =>
      simp only [itemsMatcher] at h
      by_cases hx : reIgnoreMatch c x = true
      · rw [if_pos hx] at h
        obtain ⟨m', hm', _⟩ := Option.map_eq_some'.mp h
        exact ⟨[x], xs, some x, m', rfl, hm'⟩
      · rw [if_neg hx] at h; cases h
  | cls p =>
    cases s with
    | nil => simp [itemsMatcher] at h
    | cons x xs =>
      simp only [itemsMatcher] at h
      by_cases hx : p x
      · rw [if_pos hx] at h
        obtain ⟨m', hm', _⟩ := Option.map_eq_some'.mp h
        exact ⟨[x], xs, some x, m', rfl, hm'⟩
      · rw [if_neg hx] at h; cases h
  | clsPlus p =>
    simp only [itemsMatcher] at h
    exact plusHelper_decomp p (itemsMatcher its) s m h
  | opt c =>
    cases s with
    | nil =>
      simp only [itemsMatcher] at h
      exact ⟨[], [], prev, m, rfl, h⟩
    | cons x xs =>
      simp only [itemsMatcher] at h
      by_cases hx : x = c
      · rw [if_pos hx] at h
        cases hi : itemsMatcher its (some x) xs with
        | some m1 => exact ⟨[x], xs, some x, m1, rfl, hi⟩
        | none =>
          rw [hi] at h
          exact ⟨[], x :: xs, prev, m, rfl, h⟩
      · rw [if_neg hx] at h
        exact ⟨[], x :: xs, prev, m, rfl, h⟩
  | boundary =>
    simp only [itemsMatcher] at h
    by_cases hb : wordBoundary prev s
    · rw [if_pos hb] at h
      exact ⟨[], s, prev, m, rfl, h⟩
    · rw [if_neg hb] at h
      cases h

theorem itemsMatcher_steps (pre : List RItem) :
    ∀ (its : List RItem) (prev : Option Char) (s m : List Char),
      itemsMatcher (pre ++ its) prev s = some m →
      ∃ u s' prev' m', s = u ++ s' ∧ itemsMatcher its prev' s' = some m' := by
  induction pre with
  | nil => intro its prev s m h; exact ⟨[], s, prev, m, rfl, h⟩
  | cons it pre' ih =>
    intro its prev s m h
    rw [List.cons_append] at h
    obtain ⟨u1, s1, prev1, m1, hs1, h1⟩ := itemsMatcher_step it (pre' ++ its) prev s m h
    obtain ⟨u2, s2, prev2, m2, hs2, h2⟩ := ih its prev1 s1 m1 h1
    exact ⟨u1 ++ u2, s2, prev2, m2, by rw [hs1, hs2, List.append_assoc], h2⟩

theorem itemsMatcher_litsRun (w : List Char) :
    ∀ (its : List RItem) (prev : Option Char) (s m : List Char),
      itemsMatcher (litsCI w ++ its) prev s = some m →
      ∃ w' s', s = w' ++ s' ∧
        List.Forall₂ (fun c x => reIgnoreMatch c x = true) w w' := by
  induction w with
  | nil => intro its prev s m _; exact ⟨[], s, rfl, List.Forall₂.nil⟩
  | cons c cs ih =>
    intro its prev s m h
    have hform : litsCI (c :: cs) ++ its = RItem.litCI c :: (litsCI cs ++ its) := by
      simp [litsCI]
    rw [hform] at h
    cases s with
    | nil => simp [itemsMatcher] at h
    | cons x xs =>
      simp only [itemsMatcher] at h
      by_cases hx : reIgnoreMatch c x = true
      · rw [if_pos hx] at h
        obtain ⟨m', hm', _⟩ := Option.map_eq_some'.mp h
        obtain ⟨w', s', hs, hw⟩ := ih its (some x) xs m' hm'
        exact ⟨x :: w', s', by simp [hs], List.Forall₂.cons hx hw⟩
      · rw [if_neg hx] at h; cases h

theorem searchFrom_decomp (pat : List RItem) :
    ∀ (s : List Char) (prev : Option Char) (m : List Char),
      searchFrom pat prev s = some m →
      ∃ u s' prev', s = u ++ s' ∧ itemsMatcher pat prev' s' = some m := by
  intro s
  induction s with
  | nil => intro prev m h; exact ⟨[], [], prev, rfl, h⟩
  | cons x xs ih =>
    intro prev m h
    simp only [searchFrom] at h
    cases him : itemsMatcher pat prev (x :: xs) with
    | some m0 =>
      rw [him] at h
      cases h
      exact ⟨[], x :: xs, prev, rfl, him⟩
    | none =>
      rw [him] at h
      obtain ⟨u, s', prev', hs, hm⟩ := ih (some x) m h
      exact ⟨x :: u, s', prev', by simp [hs], hm⟩

theorem pyLowerStr_fix (s : List Char) : ∀ x ∈ pyLowerStr s, pyLower x = x := by
  intro x hx
  obtain ⟨a, _, ha⟩ := List.mem_map.mp hx
  rw [← ha]
  exact pyLower_idem a

theorem reFixes_nonascii (c d : Char) (hc : c.toNat < 128) (hd : d ∈ reFixes c) :
    128 ≤ d.toNat := by
  unfold reFixes at hd
  cases hfind : reEquivalences.find? (fun t => t.contains c) with
  | none =>
    rw [hfind] at hd
    cases hd
  | some t =>
    rw [hfind] at hd
    have htm : t ∈ reEquivalences := List.mem_of_find?_eq_some hfind
    have hct : t.contains c = true := by simpa using List.find?_some hfind
    have hcmem : c ∈ t := by simpa using hct
    have hdt : d ∈ t := (List.mem_filter.mp hd).1
    have hne : d ≠ c := by simpa using (List.mem_filter.mp hd).2
    have hall : ∀ t ∈ reEquivalences, ∀ c ∈ t, ∀ d ∈ t,
        c.toNat < 128 → d ≠ c → 128 ≤ d.toNat := by decide
    exact hall t htm c hcmem d hdt hc hne

theorem pyLower_ascii (c : Char) (h : c.toNat < 128) : (pyLower c).toNat < 128 := by
  unfold pyLower
  cases hl : asciiLowerTable.lookup c with
  | none => simpa using h
  | some y =>
    have hm := lookup_mem _ _ _ hl
    have hall : ∀ p ∈ asciiLowerTable, p.2.toNat < 128 := by decide
    simpa using hall (c, y) hm

theorem forall2_ignore_eq :
    ∀ (w w' : List Char), List.Forall₂ (fun c x => reIgnoreMatch c x = true) w w' →
      (∀ c ∈ w, c.toNat < 128) →
      (∀ x ∈ w', pyLower x = x) →
      (∀ x ∈ w', x.toNat < 128) → w' = w := by
  intro w w' hf
  induction hf with
  | nil => intro _ _ _; rfl
  | cons hrel hrest ih =>
    intro hw hfix hascii
    next a b l₁ l₂ =>
      have hba : b = a := by
        unfold reIgnoreMatch at hrel
        have hb : sreLower b = b := hfix b (by simp)
        rw [show sreLower b = pyLower b from rfl] at hb
        have hmem : sreLower b ∈ a :: reFixes a := by simpa using hrel
        rw [show sreLower b = pyLower b from rfl, hb] at hmem
        cases hmem with
        | head => rfl
        | tail _ htl =>
          exfalso
          have h1 := reFixes_nonascii a b (hw a (by simp)) htl
          have h2 := hascii b (by simp)
          omega
      have hl : l₂ = l₁ := ih (fun c hc => hw c (by simp [hc]))
        (fun x hx => hfix x (by simp [hx])) (fun x hx => hascii x (by simp [hx]))
      rw [hba, hl]

theorem patternContainsKw (pre post : List RItem) (kw low m : List Char)
    (hkw : ∀ c ∈ kw, c.toNat < 128)
    (hfix : ∀ x ∈ low, pyLower x = x)
    (hascii : ∀ x ∈ low, x.toNat < 128)
    (h : reSearch (pre ++ (litsCI kw ++ post)) low = some m) :
    containsSub kw low = true := by
  obtain ⟨u0, s0, prev0, hs0, h0⟩ := searchFrom_decomp _ low none m h
  obtain ⟨u1, s1, prev1, m1, hs1, h1⟩ := itemsMatcher_steps pre _ prev0 s0 m h0
  obtain ⟨w', s2, hs2, hw⟩ := itemsMatcher_litsRun kw post prev1 s1 m1 h1
  have hlow : low = (u0 ++ u1) ++ w' ++ s2 := by
    rw [hs0, hs1, hs2]
    simp [List.append_assoc]
  have hwmem : ∀ x ∈ w', pyLower x = x := by
    intro x hx
    apply hfix
    rw [hlow]
    simp [hx]
  have hwascii : ∀ x ∈ w', x.toNat < 128 := by
    intro x hx
    apply hascii
    rw [hlow]
    simp [hx]
  have hid : w' = kw := forall2_ignore_eq kw w' hw hkw hwmem hwascii
  rw [hid] at hlow
  exact containsSub_parts (u0 ++ u1) kw s2 low hlow

theorem reSearch_email_ne_nil (a m : List Char)
    (h : reSearch emailPattern a = some m) : m ≠ [] := by
  obtain ⟨u, s', prev', _, hm⟩ := searchFrom_decomp emailPattern a none m h
  simp only [emailPattern, itemsMatcher] at hm
  by_cases hb : wordBoundary prev' s'
  · rw [if_pos hb] at hm
    exact plusHelper_ne_nil _ _ _ _ hm
  · rw [if_neg hb] at hm
    cases hm

/-- C1: an affiliation containing (case-insensitively, as a substring) any
keyword of the fixed academic-keyword list is classified as non-company,
whatever company keywords or company-naming patterns it also contains. -/
theorem C1_academic_keyword_precedence :
    ∀ (aff : List Char),
      (∃ kw ∈ ACADEMIC_KEYWORDS, containsSub kw (pyLowerStr aff) = true) →
      isCompanyAffiliation aff = false := by
  intro aff h
  obtain ⟨kw, hkw, hc⟩ := h
  unfold isCompanyAffiliation
  by_cases he : aff.isEmpty = true
  · simp [he]
  · have ha : ACADEMIC_KEYWORDS.any (fun k => containsSub k (pyLowerStr aff)) = true :=
      List.any_eq_true.mpr ⟨kw, hkw, hc⟩
    simp [he, ha]

/-- Witness for C1: the spec's own example affiliation, containing both
academic and company signals, classifies as non-company. -/
theorem C1_witness :
    isCompanyAffiliation
      (String.toList "Dept. of Medicine, Acme Pharmaceuticals Inc., University Hospital")
      = false :=
  C1_academic_keyword_precedence _ ⟨String.toList "university", by decide, by decide⟩

/-- C3: an affiliation containing a company keyword and no academic keyword
(case-insensitively, as substrings) is classified as a company. -/
theorem C3_company_keyword_classifies :
    ∀ (aff : List Char),
      (∃ kw ∈ COMPANY_KEYWORDS, containsSub kw (pyLowerStr aff) = true) →
      (∀ kw ∈ ACADEMIC_KEYWORDS, containsSub kw (pyLowerStr aff) = false) →
      isCompanyAffiliation aff = true := by
  intro aff h hacad
  obtain ⟨kw, hkw, hc⟩ := h
  have hkwe : kw.isEmpty = false := by
    have hall : ∀ k ∈ COMPANY_KEYWORDS, k.isEmpty = false := by decide
    exact hall kw hkw
  have he : aff.isEmpty = false := by
    cases aff with
    | nil =>
      exfalso
      have : containsSub kw [] = true := hc
      rw [containsSub] at this
      rw [hkwe] at this
      cases this
    | cons x xs => rfl
  have ha : ACADEMIC_KEYWORDS.any (fun k => containsSub k (pyLowerStr aff)) = false := by
    rw [List.any_eq_false]
    intro k hk
    simp [hacad k hk]
  have hcomp : COMPANY_KEYWORDS.any (fun k => containsSub k (pyLowerStr aff)) = true :=
    List.any_eq_true.mpr ⟨kw, hkw, hc⟩
  simp [isCompanyAffiliation, he, ha, hcomp]

/-- Witness for C3: the spec's own example company affiliation. -/
theorem C3_witness :
    isCompanyAffiliation (String.toList "Acme Therapeutics Inc.") = true :=
  C3_company_keyword_classifies _
    ⟨String.toList "therapeutics", by decide, by decide⟩ (by decide)

/-- C10 counterexample: the affiliation "Zenith Bıotech" (with dotless i,
U+0131).  Lowercasing leaves it unchanged; no company keyword is a
substring of it (biotech needs a plain i), yet the IGNORECASE pattern
\b[A-Za-z]+\s+Biotech matches it, because the literal i also matches
dotless i through the re compiler's case-equivalence table.  The full
classifier answers true through the pattern tier while the classifier
without the pattern tier answers false, refuting the claimed extensional
equality. -/
theorem C10_counterexample :
    isCompanyAffiliation (String.toList "Zenith B\u0131otech") = true ∧
      isCompanyAffiliationNoPatterns (String.toList "Zenith B\u0131otech") = false := by
  refine ⟨by decide, by decide⟩

/-- C10 (amended): restricted to affiliation strings made of ASCII
characters, the regular-expression pattern tier of the classifier is
redundant: the classifier with the pattern tier removed is extensionally
equal to the full classifier, because an ASCII string matched by one of
the six company-naming patterns already contains the corresponding
company keyword.  (On non-ASCII strings the tiers differ: see the
counterexample, where an IGNORECASE case equivalent of a keyword letter
satisfies the pattern without producing the keyword substring.) -/
theorem C10_pattern_tier_redundant_ascii :
    ∀ (aff : List Char), (∀ c ∈ aff, c.toNat < 128) →
      isCompanyAffiliation aff = isCompanyAffiliationNoPatterns aff := by
  intro aff haff
  have hfix := pyLowerStr_fix aff
  have hascii : ∀ x ∈ pyLowerStr aff, x.toNat < 128 := by
    intro x hx
    obtain ⟨a, ha, rfl⟩ := List.mem_map.mp hx
    exact pyLower_ascii a (haff a ha)
  unfold isCompanyAffiliation isCompanyAffiliationNoPatterns
  by_cases he : aff.isEmpty = true
  · simp [he]
  · by_cases ha : ACADEMIC_KEYWORDS.any (fun kw => containsSub kw (pyLowerStr aff)) = true
    · simp [he, ha]
    · by_cases hc : COMPANY_KEYWORDS.any (fun kw => containsSub kw (pyLowerStr aff)) = true
      · simp [he, ha, hc]
      · by_cases hpat : companyPatterns.any
            (fun pat => (reSearch pat (pyLowerStr aff)).isSome) = true
        · exfalso
          obtain ⟨pat, hmem, hmatch⟩ := List.any_eq_true.mp hpat
          obtain ⟨m, hm⟩ := Option.isSome_iff_exists.mp hmatch
          have hckw : ∃ kw ∈ COMPANY_KEYWORDS, containsSub kw (pyLowerStr aff) = true := by
            simp only [companyPatterns, List.mem_cons, List.not_mem_nil, or_false] at hmem
            rcases hmem with h6|h6|h6|h6|h6|h6
            · subst h6
              rw [show patInc =
                  [RItem.boundary, RItem.clsPlus isAsciiAlpha, RItem.opt ',',
                   RItem.clsPlus isPySpace] ++
                    (litsCI (String.toList "inc") ++ [RItem.opt '.']) by
                simp [patInc]] at hm
              exact ⟨String.toList "inc", by decide,
                patternContainsKw _ _ _ _ _ (by decide) hfix hascii hm⟩
            · subst h6
              rw [show patLtd =
                  [RItem.boundary, RItem.clsPlus isAsciiAlpha, RItem.opt ',',
                   RItem.clsPlus isPySpace] ++
                    (litsCI (String.toList "ltd") ++ [RItem.opt '.']) by
                simp [patLtd]] at hm
              exact ⟨String.toList "ltd", by decide,
                patternContainsKw _ _ _ _ _ (by decide) hfix hascii hm⟩
            · subst h6
              rw [show patLlc =
                  [RItem.boundary, RItem.clsPlus isAsciiAlpha, RItem.opt ',',
                   RItem.clsPlus isPySpace] ++
                    (litsCI (String.toList "llc") ++ ([] : List RItem)) by
                simp [patLlc]] at hm
              exact ⟨String.toList "llc", by decide,
                patternContainsKw _ _ _ _ _ (by decide) hfix hascii hm⟩
            · subst h6
              rw [show patCorp =
                  [RItem.boundary, RItem.clsPlus isAsciiAlpha, RItem.opt ',',
                   RItem.clsPlus isPySpace] ++
                    (litsCI (String.toList "corp") ++ [RItem.opt '.']) by
                simp [patCorp]] at hm
              exact ⟨String.toList "corp", by decide,
                patternContainsKw _ _ _ _ _ (by decide) hfix hascii hm⟩
            · subst h6
              rw [show patPharmaceuticals =
                  [RItem.boundary, RItem.clsPlus isAsciiAlpha, RItem.clsPlus isPySpace] ++
                    (litsCI (String.toList "pharmaceuticals") ++ ([] : List RItem)) by
                simp [patPharmaceuticals]] at hm
              exact ⟨String.toList "pharmaceuticals", by decide,
                patternContainsKw _ _ _ _ _ (by decide) hfix hascii hm⟩
            · subst h6
              rw [show patBiotech =
                  [RItem.boundary, RItem.clsPlus isAsciiAlpha, RItem.clsPlus isPySpace] ++
                    (litsCI (String.toList "biotech") ++ ([] : List RItem)) by
                simp [patBiotech]] at hm
              exact ⟨String.toList "biotech", by decide,
                patternContainsKw _ _ _ _ _ (by decide) hfix hascii hm⟩
          exact hc (List.any_eq_true.mpr hckw)
        · simp [he, ha, hc, hpat]

/-- Witness for C10 (amended) at an ASCII affiliation. -/
theorem C10_witness :
    isCompanyAffiliation (String.toList "Acme Gadgets Company")
      = isCompanyAffiliationNoPatterns (String.toList "Acme Gadgets Company") :=
  C10_pattern_tier_redundant_ascii (String.toList "Acme Gadgets Company") (by decide)

/-
  Author-loop lemmas: the folded state of _parse_article's author loop,
  characterised field by field.
-/

theorem stepAuthor_unnamed (st : PState) (au : Author) (h : au.lastName = none) :
    stepAuthor st au = st := by
  simp [stepAuthor, h]

theorem stepAuthor_hasPharma (st : PState) (au : Author) :
    (stepAuthor st au).hasPharmaAuthor
      = (st.hasPharmaAuthor || (authorNamed au && authorCompany au)) := by
  unfold stepAuthor authorNamed authorCompany
  cases hln : au.lastName with
  | none => simp
  | some l =>
    by_cases hc : (au.affiliations.filter (fun t => !t.isEmpty)).any isCompanyAffiliation = true
    · simp [hc]
    · simp only [Bool.not_eq_true] at hc
      simp [hc]

theorem foldl_hasPharma (auths : List Author) :
    ∀ st, (auths.foldl stepAuthor st).hasPharmaAuthor
      = (st.hasPharmaAuthor || auths.any (fun au => authorNamed au && authorCompany au)) := by
  induction auths with
  | nil => intro st; simp
  | cons au rest ih =>
    intro st
    simp only [List.foldl_cons, List.any_cons]
    rw [ih, stepAuthor_hasPharma]
    simp [Bool.or_assoc]

theorem emailStep_keep (affs : List (List Char)) (e : List Char)
    (h : e.isEmpty = false) : affs.foldl emailStep e = e := by
  induction affs with
  | nil => rfl
  | cons a rest ih =>
    simp only [List.foldl_cons]
    have hstep : emailStep e a = e := by
      unfold emailStep
      cases reSearch emailPattern a with
      | some m => simp [h]
      | none => rfl
    rw [hstep, ih]

theorem reSearch_email_nil : reSearch emailPattern [] = none := rfl

theorem isEmpty_false_of_some_reSearch (a m : List Char)
    (h : reSearch emailPattern a = some m) : m.isEmpty = false := by
  have := reSearch_email_ne_nil a m h
  cases m with
  | nil => exact absurd rfl this
  | cons x xs => rfl

theorem emailStep_nil_fold (affs : List (List Char)) :
    affs.foldl emailStep [] = firstEmailIn affs := by
  induction affs with
  | nil => rfl
  | cons a rest ih =>
    simp only [List.foldl_cons, firstEmailIn]
    cases hre : reSearch emailPattern a with
    | some m =>
      have hm := isEmpty_false_of_some_reSearch a m hre
      rw [show emailStep [] a = m by simp [emailStep, hre]]
      exact emailStep_keep rest m hm
    | none =>
      rw [show emailStep [] a = [] by simp [emailStep, hre]]
      exact ih

theorem firstEmailIn_append (l₁ l₂ : List (List Char)) :
    firstEmailIn (l₁ ++ l₂)
      = (if (firstEmailIn l₁).isEmpty then firstEmailIn l₂ else firstEmailIn l₁) := by
  induction l₁ with
  | nil => simp [firstEmailIn]
  | cons a rest ih =>
    simp only [List.cons_append, firstEmailIn]
    cases hre : reSearch emailPattern a with
    | some m =>
      have hm := isEmpty_false_of_some_reSearch a m hre
      simp [hm]
    | none => exact ih

theorem firstEmailIn_filter (affs : List (List Char)) :
    firstEmailIn (affs.filter (fun t => !t.isEmpty)) = firstEmailIn affs := by
  induction affs with
  | nil => rfl
  | cons a rest ih =>
    cases a with
    | nil =>
      rw [show (([] : List Char) :: rest).filter (fun t => !t.isEmpty)
            = rest.filter (fun t => !t.isEmpty) by simp]
      rw [show firstEmailIn ([] :: rest) = firstEmailIn rest by
        simp [firstEmailIn, reSearch_email_nil]]
      exact ih
    | cons x xs =>
      simp only [List.filter_cons]
      rw [show (!(x :: xs).isEmpty) = true by rfl]
      simp only [if_pos]
      simp only [firstEmailIn]
      cases hre : reSearch emailPattern (x :: xs) with
      | some m => rfl
      | none => exact ih

theorem stepAuthor_email (st : PState) (au : Author) (l : List Char)
    (hln : au.lastName = some l) :
    (stepAuthor st au).correspondingEmail
      = (au.affiliations.filter (fun t => !t.isEmpty)).foldl
          emailStep st.correspondingEmail := by
  unfold stepAuthor
  rw [hln]
  by_cases hc : (au.affiliations.filter (fun t => !t.isEmpty)).any isCompanyAffiliation = true
  · simp [hc]
  · simp only [Bool.not_eq_true] at hc
    simp [hc]

theorem isEmpty_nil_of_true (l : List Char) (h : l.isEmpty = true) : l = [] := by
  cases l with
  | nil => rfl
  | cons x xs => cases h

theorem foldl_email (auths : List Author) :
    ∀ st, (auths.foldl stepAuthor st).correspondingEmail
      = (if st.correspondingEmail.isEmpty
         then firstEmailIn ((auths.filter authorNamed).flatMap
                (fun au => au.affiliations.filter (fun t => !t.isEmpty)))
         else st.correspondingEmail) := by
  induction auths with
  | nil =>
    intro st
    by_cases h : st.correspondingEmail.isEmpty = true
    · have h0 := isEmpty_nil_of_true _ h
      simp [h0, firstEmailIn]
    · simp only [Bool.not_eq_true] at h
      simp [h]
  | cons au rest ih =>
    intro st
    simp only [List.foldl_cons]
    rw [ih (stepAuthor st au)]
    cases hln : au.lastName with
    | none =>
      rw [stepAuthor_unnamed st au hln]
      have hn : authorNamed au = false := by simp [authorNamed, hln]
      simp [List.filter_cons, hn]
    | some l =>
      have hn : authorNamed au = true := by simp [authorNamed, hln]
      rw [stepAuthor_email st au l hln]
      rw [show (au :: rest).filter authorNamed = au :: rest.filter authorNamed by
        simp [List.filter_cons, hn]]
      rw [List.flatMap_cons, firstEmailIn_append]
      by_cases hse : st.correspondingEmail.isEmpty = true
      · rw [isEmpty_nil_of_true _ hse]
        rw [show (([] : List Char)).isEmpty = true from rfl]
        rw [emailStep_nil_fold]
        by_cases hfe : (firstEmailIn (au.affiliations.filter (fun t => !t.isEmpty))).isEmpty = true
        · rw [isEmpty_nil_of_true _ hfe]
          simp only [hfe]
          simp
        · simp only [Bool.not_eq_true] at hfe
          simp [hfe]
      · simp only [Bool.not_eq_true] at hse
        rw [emailStep_keep _ _ hse]
        simp [hse]

theorem flatMap_filter_email (auths : List Author) :
    firstEmailIn (auths.flatMap (fun au => au.affiliations.filter (fun t => !t.isEmpty)))
      = firstEmailIn (auths.flatMap Author.affiliations) := by
  induction auths with
  | nil => rfl
  | cons au rest ih =>
    simp only [List.flatMap_cons]
    rw [firstEmailIn_append, firstEmailIn_append, firstEmailIn_filter, ih]

theorem stepAuthor_names (st : PState) (au : Author) :
    (stepAuthor st au).pharmaAuthors
      = st.pharmaAuthors ++ (match au.lastName with
          | some l => if authorCompany au then [displayName au l] else []
          | none => []) := by
  unfold stepAuthor authorCompany
  cases hln : au.lastName with
  | none => simp
  | some l =>
    by_cases hc : (au.affiliations.filter (fun t => !t.isEmpty)).any isCompanyAffiliation = true
    · simp [hc, authorCompany, hln]
    · simp only [Bool.not_eq_true] at hc
      simp [hc, authorCompany, hln]

theorem foldl_names (auths : List Author) :
    ∀ st, (auths.foldl stepAuthor st).pharmaAuthors
      = st.pharmaAuthors ++ auths.filterMap (fun au =>
          match au.lastName with
          | some l => if authorCompany au then some (displayName au l) else none
          | none => none) := by
  induction auths with
  | nil => intro st; simp
  | cons au rest ih =>
    intro st
    simp only [List.foldl_cons, List.filterMap_cons]
    rw [ih, stepAuthor_names]
    cases hln : au.lastName with
    | none => simp
    | some l =>
      by_cases hc : authorCompany au = true
      · simp [hc, List.append_assoc]
      · simp only [Bool.not_eq_true] at hc
        simp [hc]

theorem foldl_filter_named (auths : List Author) :
    ∀ st, (auths.filter authorNamed).foldl stepAuthor st = auths.foldl stepAuthor st := by
  induction auths with
  | nil => intro st; rfl
  | cons au rest ih =>
    intro st
    cases hln : au.lastName with
    | none =>
      have hn : authorNamed au = false := by simp [authorNamed, hln]
      rw [List.filter_cons, hn]
      simp only [List.foldl_cons]
      rw [stepAuthor_unnamed st au hln]
      exact ih st
    | some l =>
      have hn : authorNamed au = true := by simp [authorNamed, hln]
      rw [List.filter_cons, hn]
      simp only [if_pos, List.foldl_cons]
      exact ih (stepAuthor st au)

/-
  Batch-loop lemmas (fetch_article_details, lines 154-158): the per-record
  accumulation is compositional.
-/

theorem processStep_acc (acc : List ArticleResult) (r : ArticleRecord) :
    processStep acc r = acc ++ processStep [] r := by
  unfold processStep
  cases parseArticle r with
  | none => simp
  | some a =>
    by_cases hf : a.hasPharmaAuthor = true
    · simp [hf]
    · simp only [Bool.not_eq_true] at hf
      simp [hf]

theorem process_acc (rs : List ArticleRecord) :
    ∀ acc, rs.foldl processStep acc = acc ++ processArticles rs := by
  induction rs with
  | nil => intro acc; simp [processArticles]
  | cons r rest ih =>
    intro acc
    have hcons : processArticles (r :: rest) = processStep [] r ++ processArticles rest := by
      unfold processArticles
      simp only [List.foldl_cons]
      exact ih (processStep [] r)
    rw [hcons]
    simp only [List.foldl_cons]
    rw [ih (processStep acc r), processStep_acc]
    simp [List.append_assoc]

theorem process_cons (r : ArticleRecord) (rest : List ArticleRecord) :
    processArticles (r :: rest) = processStep [] r ++ processArticles rest := by
  unfold processArticles
  simp only [List.foldl_cons]
  exact process_acc rest (processStep [] r)

theorem process_append (xs ys : List ArticleRecord) :
    processArticles (xs ++ ys) = processArticles xs ++ processArticles ys := by
  unfold processArticles
  rw [List.foldl_append]
  exact process_acc ys (xs.foldl processStep [])

theorem parse_hasPharma (r : ArticleRecord) (a : ArticleResult)
    (h : parseArticle r = some a) : a.hasPharmaAuthor = true := by
  unfold parseArticle at h
  cases hp : r.pmid with
  | none => rw [hp] at h; cases h
  | some pmid =>
    rw [hp] at h
    simp only at h
    by_cases hf : (r.authors.foldl stepAuthor ⟨[], [], [], false⟩).hasPharmaAuthor = true
    · rw [if_pos hf] at h
      cases h
      rfl
    · rw [if_neg hf] at h
      cases h

theorem process_filterMap (rs : List ArticleRecord) :
    processArticles rs = rs.filterMap parseArticle := by
  induction rs with
  | nil => rfl
  | cons r rest ih =>
    rw [process_cons, List.filterMap_cons]
    cases hp : parseArticle r with
    | none =>
      rw [show processStep [] r = [] by simp [processStep, hp]]
      simp [ih]
    | some a =>
      have hf := parse_hasPharma r a hp
      rw [show processStep [] r = [a] by simp [processStep, hp, hf]]
      simp [ih]

theorem authorCompany_of_aff (au : Author) (aff : List Char)
    (haff : aff ∈ au.affiliations) (hc : isCompanyAffiliation aff = true) :
    authorCompany au = true := by
  unfold authorCompany
  apply List.any_eq_true.mpr
  refine ⟨aff, ?_, hc⟩
  apply List.mem_filter.mpr
  refine ⟨haff, ?_⟩
  cases aff with
  | nil => cases hc
  | cons x xs => rfl

theorem authorCompany_exists (au : Author) (h : authorCompany au = true) :
    ∃ aff ∈ au.affiliations, isCompanyAffiliation aff = true := by
  unfold authorCompany at h
  obtain ⟨aff, hmem, hc⟩ := List.any_eq_true.mp h
  exact ⟨aff, (List.mem_filter.mp hmem).1, hc⟩

/-- C2 counterexample: a record with no PMID whose author has a
company-classified affiliation yields no Article Result, refuting the
claimed equivalence as stated. -/
theorem C2_counterexample :
    parseArticle recNoPmid = none ∧
      ∃ au ∈ recNoPmid.authors, ∃ aff ∈ au.affiliations,
        isCompanyAffiliation aff = true := by
  constructor
  · rfl
  · decide

/-- C2 (amended): an Article Result is produced for a record exactly when
the record has a PMID and some author with a LastName has an affiliation
the classifier marks as company; and the fetch loop retains exactly the
produced results. -/
theorem C2_company_author_iff :
    (∀ r : ArticleRecord,
      (parseArticle r).isSome = true ↔
        (r.pmid.isSome = true ∧
          ∃ au ∈ r.authors, au.lastName.isSome = true ∧
            ∃ aff ∈ au.affiliations, isCompanyAffiliation aff = true)) ∧
    (∀ rs : List ArticleRecord, processArticles rs = rs.filterMap parseArticle) := by
  constructor
  · intro r
    constructor
    · intro h
      unfold parseArticle at h
      cases hp : r.pmid with
      | none => rw [hp] at h; cases h
      | some pmid =>
        rw [hp] at h
        simp only at h
        by_cases hf : (r.authors.foldl stepAuthor ⟨[], [], [], false⟩).hasPharmaAuthor = true
        · refine ⟨rfl, ?_⟩
          rw [foldl_hasPharma] at hf
          simp only [Bool.false_or] at hf
          obtain ⟨au, hau, hp2⟩ := List.any_eq_true.mp hf
          have hp3 : authorNamed au = true ∧ authorCompany au = true := by simpa using hp2
          obtain ⟨hnamed, hcomp⟩ := hp3
          obtain ⟨aff, haff, hc⟩ := authorCompany_exists au hcomp
          exact ⟨au, hau, hnamed, aff, haff, hc⟩
        · rw [if_neg hf] at h
          cases h
    · intro hh
      obtain ⟨hpm, au, hau, hnamed, aff, haff, hc⟩ := hh
      obtain ⟨pmid, hp⟩ := Option.isSome_iff_exists.mp hpm
      unfold parseArticle
      rw [hp]
      simp only
      have hf : (r.authors.foldl stepAuthor ⟨[], [], [], false⟩).hasPharmaAuthor = true := by
        rw [foldl_hasPharma]
        simp only [Bool.false_or]
        apply List.any_eq_true.mpr
        refine ⟨au, hau, ?_⟩
        have h1 : authorNamed au = true := by simpa [authorNamed] using hnamed
        have h2 : authorCompany au = true := authorCompany_of_aff au aff haff hc
        simp [h1, h2]
      simp [hf]
  · exact process_filterMap

/-- C4 counterexample: in recSkippedEmail the only email address sits in the
affiliation of an author without a LastName; the produced Article Result
carries the empty contact email, not the first email over all affiliation
text of all authors. -/
theorem C4_counterexample :
    ¬ ((parseArticle recSkippedEmail).map ArticleResult.correspondingEmail
        = some (allAffiliationsEmail recSkippedEmail)) := by
  decide

/-- C4 (amended): the Article Result's contact email is the first
email-shaped substring in document order over the affiliation text of the
authors that have a LastName (empty when none exists), independently of
company classification or any corresponding-author designation. -/
theorem C4_email_from_named_authors :
    ∀ (r : ArticleRecord) (a : ArticleResult), parseArticle r = some a →
      a.correspondingEmail = namedAffiliationsEmail r := by
  intro r a h
  unfold parseArticle at h
  cases hp : r.pmid with
  | none => rw [hp] at h; cases h
  | some pmid =>
    rw [hp] at h
    simp only at h
    by_cases hf : (r.authors.foldl stepAuthor ⟨[], [], [], false⟩).hasPharmaAuthor = true
    · rw [if_pos hf] at h
      cases h
      show (r.authors.foldl stepAuthor ⟨[], [], [], false⟩).correspondingEmail
        = namedAffiliationsEmail r
      rw [foldl_email]
      rw [show (⟨[], [], [], false⟩ : PState).correspondingEmail.isEmpty = true from rfl]
      rw [if_pos rfl]
      unfold namedAffiliationsEmail
      exact flatMap_filter_email (r.authors.filter authorNamed)
    · rw [if_neg hf] at h
      cases h

/-- Witness for C4 (amended) at recW. -/
theorem C4_witness : resW.correspondingEmail = namedAffiliationsEmail recW :=
  C4_email_from_named_authors recW resW (by decide)

/-- C5 counterexample: recMonthOnly's PubDate element is present with a
Month, yet the produced Article Result carries the placeholder date, so
the placeholder does not appear only for wholly absent dates. -/
theorem C5_counterexample :
    (parseArticle recMonthOnly).map ArticleResult.pubDate
        = some (String.toList "Unknown Date")
      ∧ recMonthOnly.pubDate ≠ none
      ∧ (recMonthOnly.pubDate.map PubDate.month)
          = some (some (String.toList "May")) := by
  refine ⟨by decide, by decide, by decide⟩

/-- C5 (amended): the Article Result's publication date is
formatPubDate of the record's date, which formats by best available
precision keyed on the year: full date when year, month and day are all
present (truthy), year-month when year and month are present and day is
not, year alone when year is present and month is not, and the
placeholder whenever the year is absent or the whole date is absent. -/
theorem C5_date_precision :
    (∀ (r : ArticleRecord) (a : ArticleResult), parseArticle r = some a →
        a.pubDate = formatPubDate r.pubDate) ∧
    (formatPubDate none = String.toList "Unknown Date") ∧
    (∀ p : PubDate, (p.year.getD []).isEmpty = true →
        formatPubDate (some p) = String.toList "Unknown Date") ∧
    (∀ p : PubDate, (p.year.getD []).isEmpty = false →
        (p.month.getD []).isEmpty = true →
        formatPubDate (some p) = p.year.getD []) ∧
    (∀ p : PubDate, (p.year.getD []).isEmpty = false →
        (p.month.getD []).isEmpty = false →
        (p.day.getD []).isEmpty = true →
        formatPubDate (some p) = p.year.getD [] ++ '-' :: p.month.getD []) ∧
    (∀ p : PubDate, (p.year.getD []).isEmpty = false →
        (p.month.getD []).isEmpty = false →
        (p.day.getD []).isEmpty = false →
        formatPubDate (some p)
          = p.year.getD [] ++ '-' :: p.month.getD [] ++ '-' :: p.day.getD []) := by
  refine ⟨?_, rfl, ?_, ?_, ?_, ?_⟩
  · intro r a h
    unfold parseArticle at h
    cases hp : r.pmid with
    | none => rw [hp] at h; cases h
    | some pmid =>
      rw [hp] at h
      simp only at h
      by_cases hf : (r.authors.foldl stepAuthor ⟨[], [], [], false⟩).hasPharmaAuthor = true
      · rw [if_pos hf] at h
        cases h
        rfl
      · rw [if_neg hf] at h
        cases h
  · intro p hy
    simp [formatPubDate, hy]
  · intro p hy hm
    simp [formatPubDate, hy, hm]
  · intro p hy hm hd
    simp [formatPubDate, hy, hm, hd]
  · intro p hy hm hd
    simp [formatPubDate, hy, hm, hd]

/-- Witness for C5 (amended) at a full date. -/
theorem C5_witness :
    formatPubDate (some ⟨some (String.toList "2021"), some (String.toList "05"),
        some (String.toList "10")⟩) = String.toList "2021-05-10" :=
  (C5_date_precision.2.2.2.2.2
      ⟨some (String.toList "2021"), some (String.toList "05"), some (String.toList "10")⟩
      (by decide) (by decide) (by decide)).trans (by decide)

/-- C6: an author without a LastName is skipped entirely (removing such
authors does not change the parse result), and the company-author names of
the Article Result are the display names, first name followed by last name
when both are present and last name alone otherwise, of exactly the
company-classified authors. -/
theorem C6_author_names :
    ∀ r : ArticleRecord,
      (parseArticle { r with authors := r.authors.filter authorNamed } = parseArticle r) ∧
      (∀ a, parseArticle r = some a →
        a.pharmaAuthors = joinSemi (companyAuthorNames r)) := by
  intro r
  constructor
  · unfold parseArticle
    cases hp : r.pmid with
    | none => rfl
    | some pmid => simp [foldl_filter_named]
  · intro a h
    unfold parseArticle at h
    cases hp : r.pmid with
    | none => rw [hp] at h; cases h
    | some pmid =>
      rw [hp] at h
      simp only at h
      by_cases hf : (r.authors.foldl stepAuthor ⟨[], [], [], false⟩).hasPharmaAuthor = true
      · rw [if_pos hf] at h
        cases h
        show joinSemi (r.authors.foldl stepAuthor ⟨[], [], [], false⟩).pharmaAuthors
          = joinSemi (companyAuthorNames r)
        rw [foldl_names]
        rfl
      · rw [if_neg hf] at h
        cases h

/-- Witness for C6 at recW. -/
theorem C6_witness : resW.pharmaAuthors = joinSemi (companyAuthorNames recW) :=
  (C6_author_names recW).2 resW (by decide)

/-- C7: parsing one record never disturbs the rest of the batch: a record
without a PMID yields no Article Result, and the batch output decomposes
record by record, so a skipped record leaves the remaining records'
results unchanged. -/
theorem C7_record_isolation :
    (∀ r : ArticleRecord, r.pmid = none → parseArticle r = none) ∧
    (∀ (rs1 : List ArticleRecord) (r : ArticleRecord) (rs2 : List ArticleRecord),
      processArticles (rs1 ++ r :: rs2)
        = processArticles rs1 ++ processArticles [r] ++ processArticles rs2) := by
  constructor
  · intro r h
    unfold parseArticle
    rw [h]
  · intro rs1 r rs2
    rw [show rs1 ++ r :: rs2 = rs1 ++ [r] ++ rs2 by simp]
    rw [process_append, process_append]

/-- Witness for C7: a PMID-less record parses to nothing. -/
theorem C7_witness : parseArticle ⟨none, none, none, []⟩ = none :=
  C7_record_isolation.1 ⟨none, none, none, []⟩ rfl

/-
  Retry-loop lemmas: behaviour of the attempt loop over List.range'.
-/

theorem goAttempts_success {α : Type} (retries n : Nat) (outcomes : Nat → Except Unit α)
    (v : α) (ex : Option α) (hn : 0 < n) (hnr : n ≤ retries)
    (hfail : ∀ i, i < n - 1 → outcomes i = .error ())
    (hok : outcomes (n - 1) = .ok v) :
    ∀ (k s : Nat), s ≤ n - 1 → n - 1 < s + k →
      goAttempts retries outcomes ex (List.range' s k) = some v := by
  intro k
  induction k with
  | zero => intro s h1 h2; omega
  | succ k ih =>
    intro s h1 h2
    rw [show List.range' s (k+1) = s :: List.range' (s+1) k from rfl]
    by_cases hs : s = n - 1
    · subst hs
      simp [goAttempts, hok]
    · have hlt : s < n - 1 := by omega
      have hfs := hfail s hlt
      simp only [goAttempts, hfs]
      have hcond : s < retries - 1 := by omega
      rw [if_pos hcond]
      exact ih (s+1) (by omega) (by omega)

theorem goAttempts_exhaust {α : Type} (retries : Nat) (outcomes : Nat → Except Unit α)
    (ex : Option α)
    (hfail : ∀ i, i < retries → outcomes i = .error ()) :
    ∀ (k s : Nat), 0 < k → s + k = retries →
      goAttempts retries outcomes ex (List.range' s k) = ex := by
  intro k
  induction k with
  | zero => intro s h0 _; omega
  | succ k ih =>
    intro s h0 hsk
    rw [show List.range' s (k+1) = s :: List.range' (s+1) k from rfl]
    have hfs := hfail s (by omega)
    simp only [goAttempts, hfs]
    by_cases hk : k = 0
    · subst hk
      have hno : ¬ (s < retries - 1) := by omega
      rw [if_neg hno]
    · have hcond : s < retries - 1 := by omega
      rw [if_pos hcond]
      exact ih (s+1) (by omega) (by omega)

/-- C8: a search or fetch whose attempts fail N-1 times and then succeed
within the retry budget returns the successful result; exhausting the
budget returns the empty id list for search and, for fetch, leaves the
failed batch out of the (partial) result, with no exception escaping. -/
theorem C8_retry_semantics :
    (∀ (retries n : Nat) (outcomes : Nat → Except Unit (List (List Char)))
        (v : List (List Char)),
        0 < n → n ≤ retries →
        (∀ i, i < n - 1 → outcomes i = .error ()) →
        outcomes (n - 1) = .ok v →
        searchModel retries outcomes = some v) ∧
    (∀ (retries : Nat) (outcomes : Nat → Except Unit (List (List Char))),
        0 < retries →
        (∀ i, i < retries → outcomes i = .error ()) →
        searchModel retries outcomes = some []) ∧
    (∀ (retries n : Nat) (ob : Nat → Except Unit (List ArticleRecord))
        (recs : List ArticleRecord),
        0 < n → n ≤ retries →
        (∀ i, i < n - 1 → ob i = .error ()) →
        ob (n - 1) = .ok recs →
        fetchModel retries [ob] = processArticles recs) ∧
    (∀ (retries : Nat) (pre post : List (Nat → Except Unit (List ArticleRecord)))
        (ob : Nat → Except Unit (List ArticleRecord)),
        0 < retries →
        (∀ i, i < retries → ob i = .error ()) →
        fetchModel retries (pre ++ ob :: post) = fetchModel retries (pre ++ post)) := by
  refine ⟨?_, ?_, ?_, ?_⟩
  · intro retries n outcomes v hn hnr hfail hok
    unfold searchModel
    rw [List.range_eq_range']
    exact goAttempts_success retries n outcomes v (some []) hn hnr hfail hok retries 0
      (by omega) (by omega)
  · intro retries outcomes h0 hfail
    unfold searchModel
    rw [List.range_eq_range']
    exact goAttempts_exhaust retries outcomes (some []) hfail retries 0 h0 (by omega)
  · intro retries n ob recs hn hnr hfail hok
    unfold fetchModel
    simp only [List.foldl_cons, List.foldl_nil]
    have hsucc : goAttempts retries ob none (List.range retries) = some recs := by
      rw [List.range_eq_range']
      exact goAttempts_success retries n ob recs none hn hnr hfail hok retries 0
        (by omega) (by omega)
    rw [hsucc]
    simp
  · intro retries pre post ob h0 hfail
    unfold fetchModel
    rw [List.foldl_append, List.foldl_append]
    simp only [List.foldl_cons]
    have hnone : goAttempts retries ob none (List.range retries) = none := by
      rw [List.range_eq_range']
      exact goAttempts_exhaust retries ob none hfail retries 0 h0 (by omega)
    rw [hnone]

/-- Witness for C8: success on the third of three attempts, exhaustion of
two attempts, and a failed batch followed by a successful batch. -/
theorem C8_witness :
    searchModel 3 outcomesThird = some [String.toList "12345"]
      ∧ searchModel 2 outcomesFailSearch = some []
      ∧ fetchModel 3 [outcomesFailRec, outcomesOkRec] = processArticles [recW] := by
  refine ⟨?_, ?_, ?_⟩
  · exact C8_retry_semantics.1 3 3 outcomesThird [String.toList "12345"]
      (by omega) (by omega)
      (fun i hi => by
        have h2 : i = 0 ∨ i = 1 := by omega
        rcases h2 with h | h <;> simp [outcomesThird, h])
      (by simp [outcomesThird])
  · exact C8_retry_semantics.2.1 2 outcomesFailSearch (by omega) (fun i _ => rfl)
  · have h4 := C8_retry_semantics.2.2.2 3 [] [outcomesOkRec] outcomesFailRec
      (by omega) (fun i _ => rfl)
    have h3 := C8_retry_semantics.2.2.1 3 1 outcomesOkRec [recW]
      (by omega) (by omega) (fun i hi => by omega) rfl
    have h4' : fetchModel 3 [outcomesFailRec, outcomesOkRec]
        = fetchModel 3 [outcomesOkRec] := by simpa using h4
    exact h4'.trans h3

/-- C9: with an empty accumulated result set, export prints the no-matches
notice and writes no file, even when an output filename is supplied. -/
theorem C9_empty_export :
    ∀ (articles : List ArticleResult) (filename : Option (List Char)),
      articles = [] →
      exportToCsv articles filename = ExportAction.printNoMatches ∧
        ∀ (f : List Char) (rows : List (List (List Char))),
          exportToCsv articles filename ≠ ExportAction.writeFile f rows := by
  intro articles filename h
  subst h
  constructor
  · rfl
  · intro f rows h2
    rw [show exportToCsv [] filename = ExportAction.printNoMatches from rfl] at h2
    exact ExportAction.noConfusion h2

/-- Witness for C9: empty results with a filename supplied. -/
theorem C9_witness :
    exportToCsv [] (some (String.toList "results.csv")) = ExportAction.printNoMatches :=
  (C9_empty_export [] (some (String.toList "results.csv")) rfl).1

/-- Witness for C2 (amended): recW has a PMID and a named company author,
so a result is produced. -/
theorem C2_witness : (parseArticle recW).isSome = true :=
  (C2_company_author_iff.1 recW).mpr
    ⟨rfl,
     ⟨some (String.toList "Doe"), some (String.toList "Jane"),
      [String.toList "Acme Inc, jane@acme.com"]⟩,
     by decide, rfl, String.toList "Acme Inc, jane@acme.com", by decide, by decide⟩
